import Mathlib

/-!
Verification of the NC_Compare repository (src/NC/Compare_txt.py and
src/NC/Compare_nc_txt.py) against its natural-language specification.

The core of the program is the difference classifier `_analyze_differences`,
a single forward pass over the output of difflib.Differ.compare.  Both
source files contain a byte-for-byte identical copy of this function, so a
single Lean embedding covers both.  The surrounding orchestration
(`_compare_files`, `_compare_file_pair`, `_compare_in_folder`, `run`) is
embedded with the file system and the file reader abstracted as parameters.
-/

namespace NC

/-- The four tags of an alignment record, corresponding to the line prefixes
produced by difflib.Differ.compare: two spaces (common), minus-space
(removed), plus-space (added), and question-mark-space (the intraline
advisory hint). -/
inductive Tag where
  | common
  | removed
  | added
  | hint
deriving DecidableEq, Repr

/-- One record of the alignment sequence consumed by the classifier:
the tag (the line's two-character marker) together with the payload text
(the characters after the marker, i.e. line[2:] in the source). -/
structure AlignmentRecord where
  tag : Tag
  content : String
deriving DecidableEq, Repr

/-- The four values of the `type` field of the dictionaries built by
`_analyze_differences` (the Chinese strings for removed, added, changed
and changed-content). -/
inductive DKind where
  | removed
  | added
  | changed
  | changedContent
deriving DecidableEq, Repr

/-- One classified difference, modelling the dictionaries appended to the
`differences` list: the `line` field is an integer for removed/added/changed
records and the empty string (modelled as `none`) for changed-content
records. -/
structure DiffRecord where
  kind : DKind
  line : Option Nat
  content : String
deriving DecidableEq, Repr

/-- Python's `content.rstrip(chr(10))`: remove every trailing newline
character. -/
def rstripNl (s : String) : String :=
  String.mk ((s.data.reverse.dropWhile (fun c => c == Char.ofNat 10)).reverse)

/-- One iteration of the loop body of `_analyze_differences`
(src/NC/Compare_txt.py lines 100-128, identically src/NC/Compare_nc_txt.py
lines 98-126).  The state is the pair of the accumulated `differences`
list and the `line_num` counter. -/
def analyzeStep (st : List DiffRecord × Nat) (r : AlignmentRecord) :
    List DiffRecord × Nat :=
  match r.tag with
  | Tag.common => (st.1, st.2 + 1)
  | Tag.removed =>
      (st.1 ++ [⟨DKind.removed, some (st.2 + 1), rstripNl r.content⟩], st.2)
  | Tag.added =>
      (st.1 ++ [⟨DKind.added, some (st.2 + 1), rstripNl r.content⟩], st.2 + 1)
  | Tag.hint =>
      match st.1.getLast? with
      | some last =>
          if last.kind = DKind.removed then
            (st.1.dropLast ++
              [⟨DKind.changed, last.line, last.content⟩,
               ⟨DKind.changedContent, none, rstripNl r.content⟩], st.2)
          else (st.1, st.2)
      | none => (st.1, st.2)

/-- The full forward pass of `_analyze_differences`, returning both the
accumulated list and the final value of the `line_num` counter. -/
def analyze_differences_run (diff : List AlignmentRecord) :
    List DiffRecord × Nat :=
  diff.foldl analyzeStep ([], 0)

/-- `_analyze_differences` itself: the list of classified differences. -/
def analyze_differences (diff : List AlignmentRecord) : List DiffRecord :=
  (analyze_differences_run diff).1

/-- Helper: the boolean test `differences and differences[-1].type == removed`
guarding the promotion of a Removed record when a Hint is met. -/
def lastIsRemoved (ds : List DiffRecord) : Bool :=
  match ds.getLast? with
  | some last => last.kind == DKind.removed
  | none => false

theorem analyzeStep_common (ds : List DiffRecord) (n : Nat) (c : String) :
    analyzeStep (ds, n) ⟨Tag.common, c⟩ = (ds, n + 1) := rfl

theorem analyzeStep_removed (ds : List DiffRecord) (n : Nat) (c : String) :
    analyzeStep (ds, n) ⟨Tag.removed, c⟩ =
      (ds ++ [⟨DKind.removed, some (n + 1), rstripNl c⟩], n) := rfl

theorem analyzeStep_added (ds : List DiffRecord) (n : Nat) (c : String) :
    analyzeStep (ds, n) ⟨Tag.added, c⟩ =
      (ds ++ [⟨DKind.added, some (n + 1), rstripNl c⟩], n + 1) := rfl

theorem analyze_differences_run_snoc (l : List AlignmentRecord)
    (r : AlignmentRecord) :
    analyze_differences_run (l ++ [r]) =
      analyzeStep (analyze_differences_run l) r := by
  simp [analyze_differences_run, List.foldl_append]

/-- C1: in the classifier, for every alignment sequence, a Common record
increments the line counter and emits nothing; a Removed record emits a
record with line = line_num + 1 and does not increment the counter; an
Added record emits a record with line = line_num + 1 and then increments
the counter by 1. -/
theorem classifier_step_behaviour (l : List AlignmentRecord) (c : String) :
    analyze_differences_run (l ++ [⟨Tag.common, c⟩]) =
      ((analyze_differences_run l).1, (analyze_differences_run l).2 + 1) ∧
    analyze_differences_run (l ++ [⟨Tag.removed, c⟩]) =
      ((analyze_differences_run l).1 ++
        [⟨DKind.removed, some ((analyze_differences_run l).2 + 1), rstripNl c⟩],
       (analyze_differences_run l).2) ∧
    analyze_differences_run (l ++ [⟨Tag.added, c⟩]) =
      ((analyze_differences_run l).1 ++
        [⟨DKind.added, some ((analyze_differences_run l).2 + 1), rstripNl c⟩],
       (analyze_differences_run l).2 + 1) := by
  refine ⟨?_, ?_, ?_⟩ <;>
    rw [analyze_differences_run_snoc] <;>
    rcases analyze_differences_run l with ⟨ds, n⟩ <;> rfl

theorem analyzeStep_hint_drop (ds : List DiffRecord) (n : Nat) (c : String)
    (h : lastIsRemoved ds = false) :
    analyzeStep (ds, n) ⟨Tag.hint, c⟩ = (ds, n) := by
  unfold analyzeStep lastIsRemoved at *
  rcases hl : ds.getLast? with _ | last
  · simp [hl]
  · simp only [hl] at h ⊢
    simp only [beq_eq_false_iff_ne, ne_eq] at h
    simp [h]

/-- C3: when the classifier meets a Hint record whose immediately preceding
emitted record is not an unpromoted Removed record (including when nothing
has been emitted yet, or the preceding record is Added or already Changed),
it emits nothing for that Hint and leaves the accumulated output and the
line counter unchanged. -/
theorem classifier_hint_dropped (l : List AlignmentRecord) (c : String)
    (h : lastIsRemoved (analyze_differences_run l).1 = false) :
    analyze_differences_run (l ++ [⟨Tag.hint, c⟩]) =
      analyze_differences_run l := by
  rw [analyze_differences_run_snoc]
  rcases he : analyze_differences_run l with ⟨ds, n⟩
  rw [he] at h
  exact analyzeStep_hint_drop ds n c h

theorem classifier_hint_dropped_witness :
    lastIsRemoved (analyze_differences_run [⟨Tag.added, "x"⟩]).1 = false ∧
    analyze_differences_run [⟨Tag.added, "x"⟩, ⟨Tag.hint, "?x"⟩] =
      analyze_differences_run [⟨Tag.added, "x"⟩] :=
  ⟨by decide,
   classifier_hint_dropped [⟨Tag.added, "x"⟩] ("?x") (by decide)⟩

/-- The shape invariant on the kinds of the accumulated `differences` list:
reading left to right, a changed kind is always immediately followed by a
changed-content kind, and a changed-content kind only ever appears in that
position.  The boolean flag records whether a changed-content kind is the
one legal next element. -/
def okKindsFrom (expectCC : Bool) : List DKind → Bool
  | [] => !expectCC
  | k :: rest =>
      if expectCC then
        if k = DKind.changedContent then okKindsFrom false rest else false
      else
        match k with
        | DKind.changed => okKindsFrom true rest
        | DKind.changedContent => false
        | _ => okKindsFrom false rest

def okKinds (ks : List DKind) : Bool := okKindsFrom false ks

theorem okKindsFrom_append_ra (k : DKind)
    (hk : k = DKind.removed ∨ k = DKind.added) (ks : List DKind) :
    ∀ e : Bool, okKindsFrom e ks = true → okKindsFrom e (ks ++ [k]) = true := by
  induction ks with
  | nil =>
      intro e he
      cases e with
      | true => simp [okKindsFrom] at he
      | false =>
          rcases hk with hk | hk <;> subst hk <;> simp [okKindsFrom]
  | cons k0 rest ih =>
      intro e he
      cases e with
      | true =>
          by_cases h0 : k0 = DKind.changedContent
          · subst h0
            simp only [okKindsFrom, if_true, if_pos rfl] at he
            simpa [okKindsFrom] using ih false he
          · simp [okKindsFrom, h0] at he
      | false =>
          cases k0 with
          | changed =>
              simp only [okKindsFrom] at he
              simpa [okKindsFrom] using ih true he
          | changedContent => simp [okKindsFrom] at he
          | removed =>
              simp only [okKindsFrom] at he
              simpa [okKindsFrom] using ih false he
          | added =>
              simp only [okKindsFrom] at he
              simpa [okKindsFrom] using ih false he

theorem okKindsFrom_promote (ks : List DKind) :
    ∀ e : Bool, okKindsFrom e (ks ++ [DKind.removed]) = true →
      okKindsFrom e (ks ++ [DKind.changed, DKind.changedContent]) = true := by
  induction ks with
  | nil =>
      intro e he
      cases e with
      | true => simp [okKindsFrom] at he
      | false => simp [okKindsFrom]
  | cons k0 rest ih =>
      intro e he
      cases e with
      | true =>
          by_cases h0 : k0 = DKind.changedContent
          · subst h0
            simp only [List.cons_append, okKindsFrom, if_true, if_pos rfl] at he
            simpa [okKindsFrom] using ih false he
          · simp [okKindsFrom, h0] at he
      | false =>
          cases k0 with
          | changed =>
              simp only [List.cons_append, okKindsFrom] at he
              simpa [okKindsFrom] using ih true he
          | changedContent => simp [okKindsFrom] at he
          | removed =>
              simp only [List.cons_append, okKindsFrom] at he
              simpa [okKindsFrom] using ih false he
          | added =>
              simp only [List.cons_append, okKindsFrom] at he
              simpa [okKindsFrom] using ih false he

theorem analyzeStep_hint_promote (ds : List DiffRecord) (n : Nat) (c : String)
    (last : DiffRecord) (hl : ds.getLast? = some last)
    (hk : last.kind = DKind.removed) :
    analyzeStep (ds, n) ⟨Tag.hint, c⟩ =
      (ds.dropLast ++
        [⟨DKind.changed, last.line, last.content⟩,
         ⟨DKind.changedContent, none, rstripNl c⟩], n) := by
  unfold analyzeStep
  simp only [hl]
  rw [if_pos hk]

theorem dropLast_append_getLast?_self (ds : List DiffRecord)
    (last : DiffRecord) (hl : ds.getLast? = some last) :
    ds.dropLast ++ [last] = ds := by
  have hne : ds ≠ [] := by
    intro hnil; rw [hnil] at hl; simp at hl
  have h2 := List.getLast?_eq_getLast ds hne
  rw [hl] at h2
  rw [Option.some.inj h2]
  exact List.dropLast_append_getLast hne

theorem lastIsRemoved_false_of_kind (ds : List DiffRecord)
    (last : DiffRecord) (hl : ds.getLast? = some last)
    (hk : ¬ last.kind = DKind.removed) : lastIsRemoved ds = false := by
  unfold lastIsRemoved
  rw [hl]
  simpa using hk

theorem analyzeStep_okKinds (ds : List DiffRecord) (n : Nat)
    (r : AlignmentRecord) (h : okKinds (ds.map DiffRecord.kind) = true) :
    okKinds (((analyzeStep (ds, n) r).1).map DiffRecord.kind) = true := by
  cases r with
  | mk tag content =>
    cases tag with
    | common => exact h
    | removed =>
        rw [analyzeStep_removed]
        rw [List.map_append]
        exact okKindsFrom_append_ra DKind.removed (Or.inl rfl) _ false h
    | added =>
        rw [analyzeStep_added]
        rw [List.map_append]
        exact okKindsFrom_append_ra DKind.added (Or.inr rfl) _ false h
    | hint =>
        rcases hl : ds.getLast? with _ | last
        · have : lastIsRemoved ds = false := by
            unfold lastIsRemoved; rw [hl]
          rw [analyzeStep_hint_drop ds n content this]
          exact h
        · by_cases hk : last.kind = DKind.removed
          · rw [analyzeStep_hint_promote ds n content last hl hk]
            have hds := dropLast_append_getLast?_self ds last hl
            simp only [List.map_append, List.map_cons, List.map_nil]
            apply okKindsFrom_promote _ false
            have hmap : ds.map DiffRecord.kind =
                ds.dropLast.map DiffRecord.kind ++ [DKind.removed] := by
              conv_lhs => rw [← hds]
              rw [List.map_append]
              simp [hk]
            rw [← hmap]
            exact h
          · rw [analyzeStep_hint_drop ds n content
              (lastIsRemoved_false_of_kind ds last hl hk)]
            exact h

theorem analyze_ok (l : List AlignmentRecord) :
    ∀ ds n, okKinds (ds.map DiffRecord.kind) = true →
      okKinds (((l.foldl analyzeStep (ds, n)).1).map DiffRecord.kind) = true := by
  induction l with
  | nil => intro ds n h; simpa using h
  | cons r rest ih =>
      intro ds n h
      rw [List.foldl_cons]
      rcases hs : analyzeStep (ds, n) r with ⟨ds2, n2⟩
      have h2 := analyzeStep_okKinds ds n r h
      rw [hs] at h2
      exact ih ds2 n2 h2

/-- Structural view of lists of kinds satisfying `okKinds`: a sequence of
removed/added kinds and changed-followed-by-changedContent blocks. -/
inductive OkL : List DKind → Prop where
  | nil : OkL []
  | ra (k : DKind) (hk : k = DKind.removed ∨ k = DKind.added)
      (rest : List DKind) (h : OkL rest) : OkL (k :: rest)
  | ch (rest : List DKind) (h : OkL rest) :
      OkL (DKind.changed :: DKind.changedContent :: rest)

theorem okKinds_OkL_fuel (n : Nat) :
    ∀ ks : List DKind, ks.length ≤ n → okKinds ks = true → OkL ks := by
  induction n with
  | zero =>
      intro ks hlen _
      cases ks with
      | nil => exact OkL.nil
      | cons k rest => simp at hlen
  | succ m ih =>
      intro ks hlen h
      cases ks with
      | nil => exact OkL.nil
      | cons k rest =>
          cases k with
          | removed =>
              refine OkL.ra DKind.removed (Or.inl rfl) rest ?_
              have h2 : okKinds rest = true := by
                simpa [okKinds, okKindsFrom] using h
              exact ih rest (by simp at hlen; omega) h2
          | added =>
              refine OkL.ra DKind.added (Or.inr rfl) rest ?_
              have h2 : okKinds rest = true := by
                simpa [okKinds, okKindsFrom] using h
              exact ih rest (by simp at hlen; omega) h2
          | changedContent => simp [okKinds, okKindsFrom] at h
          | changed =>
              have h2 : okKindsFrom true rest = true := by
                simpa [okKinds, okKindsFrom] using h
              cases rest with
              | nil => simp [okKindsFrom] at h2
              | cons k2 rest2 =>
                  by_cases hcc : k2 = DKind.changedContent
                  · subst hcc
                    refine OkL.ch rest2 ?_
                    have h3 : okKinds rest2 = true := by
                      simpa [okKinds, okKindsFrom] using h2
                    exact ih rest2 (by simp at hlen; omega) h3
                  · simp [okKindsFrom, hcc] at h2

theorem okKinds_OkL (ks : List DKind) (h : okKinds ks = true) : OkL ks :=
  okKinds_OkL_fuel ks.length ks le_rfl h

theorem OkL.cc_prev (ks : List DKind) (h : OkL ks) :
    ∀ i : Nat, ks.get? i = some DKind.changedContent →
      1 ≤ i ∧ ks.get? (i - 1) = some DKind.changed := by
  induction h with
  | nil => intro i hi; simp at hi
  | ra k hk rest _ ih =>
      intro i hi
      cases i with
      | zero =>
          simp at hi
          rcases hk with hk | hk <;> rw [hk] at hi <;> exact absurd hi (by simp)
      | succ j =>
          rw [List.get?_cons_succ] at hi
          obtain ⟨hj, hprev⟩ := ih j hi
          refine ⟨by omega, ?_⟩
          have : j + 1 - 1 = (j - 1) + 1 := by omega
          rw [this, List.get?_cons_succ]
          exact hprev
  | ch rest _ ih =>
      intro i hi
      match i with
      | 0 => simp at hi
      | 1 => exact ⟨by omega, by simp⟩
      | j + 2 =>
          rw [List.get?_cons_succ, List.get?_cons_succ] at hi
          obtain ⟨hj, hprev⟩ := ih j hi
          refine ⟨by omega, ?_⟩
          have : j + 2 - 1 = ((j - 1) + 1) + 1 := by omega
          rw [this, List.get?_cons_succ, List.get?_cons_succ]
          exact hprev

theorem OkL.ch_next (ks : List DKind) (h : OkL ks) :
    ∀ i : Nat, ks.get? i = some DKind.changed →
      ks.get? (i + 1) = some DKind.changedContent := by
  induction h with
  | nil => intro i hi; simp at hi
  | ra k hk rest _ ih =>
      intro i hi
      cases i with
      | zero =>
          simp at hi
          rcases hk with hk | hk <;> rw [hk] at hi <;> exact absurd hi (by simp)
      | succ j =>
          rw [List.get?_cons_succ] at hi
          rw [List.get?_cons_succ]
          exact ih j hi
  | ch rest _ ih =>
      intro i hi
      match i with
      | 0 => simp
      | 1 => simp at hi
      | j + 2 =>
          rw [List.get?_cons_succ, List.get?_cons_succ] at hi
          rw [List.get?_cons_succ, List.get?_cons_succ]
          exact ih j hi

theorem analyze_differences_OkL (l : List AlignmentRecord) :
    OkL ((analyze_differences l).map DiffRecord.kind) := by
  apply okKinds_OkL
  have := analyze_ok l [] 0 (by rfl)
  exact this

/-- C2: for every alignment sequence, in the classifier output every
ChangedContent record is immediately preceded by a Changed record (it never
appears standalone), every Changed record is immediately followed by its
ChangedContent companion, and a Changed record arises exactly by promoting
the immediately preceding unpromoted Removed record when a Hint record is
encountered (the promoted record keeps the Removed record's line number and
content). -/
theorem classifier_changed_invariant (l : List AlignmentRecord) (i : Nat) :
    (((analyze_differences l).map DiffRecord.kind).get? i =
        some DKind.changedContent →
      1 ≤ i ∧ ((analyze_differences l).map DiffRecord.kind).get? (i - 1) =
        some DKind.changed) ∧
    (((analyze_differences l).map DiffRecord.kind).get? i =
        some DKind.changed →
      ((analyze_differences l).map DiffRecord.kind).get? (i + 1) =
        some DKind.changedContent) ∧
    (∀ (ds : List DiffRecord) (n : Nat) (c : String) (last : DiffRecord),
      ds.getLast? = some last → last.kind = DKind.removed →
      analyzeStep (ds, n) ⟨Tag.hint, c⟩ =
        (ds.dropLast ++
          [⟨DKind.changed, last.line, last.content⟩,
           ⟨DKind.changedContent, none, rstripNl c⟩], n)) :=
  ⟨fun h => OkL.cc_prev _ (analyze_differences_OkL l) i h,
   fun h => OkL.ch_next _ (analyze_differences_OkL l) i h,
   fun ds n c last hl hk => analyzeStep_hint_promote ds n c last hl hk⟩

theorem classifier_changed_invariant_witness :
    (1 ≤ 1 ∧
      ((analyze_differences [⟨Tag.removed, "a"⟩, ⟨Tag.hint, "^"⟩]).map
        DiffRecord.kind).get? 0 = some DKind.changed) ∧
    analyzeStep ([⟨DKind.removed, some 1, "a"⟩], 0) ⟨Tag.hint, "^"⟩ =
      ([⟨DKind.changed, some 1, "a"⟩, ⟨DKind.changedContent, none, "^"⟩], 0) :=
  ⟨(classifier_changed_invariant [⟨Tag.removed, "a"⟩, ⟨Tag.hint, "^"⟩] 1).1
      (by decide),
   (classifier_changed_invariant [] 0).2.2 [⟨DKind.removed, some 1, "a"⟩] 0
      ("^") ⟨DKind.removed, some 1, "a"⟩ rfl rfl⟩

theorem analyzeStep_hint_snd (ds : List DiffRecord) (n : Nat) (c : String) :
    (analyzeStep (ds, n) ⟨Tag.hint, c⟩).2 = n := by
  rcases hl : ds.getLast? with _ | last
  · rw [analyzeStep_hint_drop ds n c (by unfold lastIsRemoved; rw [hl])]
  · by_cases hk : last.kind = DKind.removed
    · rw [analyzeStep_hint_promote ds n c last hl hk]
    · rw [analyzeStep_hint_drop ds n c
        (lastIsRemoved_false_of_kind ds last hl hk)]

theorem analyze_run_snd (l : List AlignmentRecord) :
    ∀ ds n, (l.foldl analyzeStep (ds, n)).2 =
      n + l.countP (fun r => r.tag == Tag.added) +
        l.countP (fun r => r.tag == Tag.common) := by
  induction l with
  | nil => intro ds n; simp
  | cons r rest ih =>
      intro ds n
      rw [List.foldl_cons]
      rcases hs : analyzeStep (ds, n) r with ⟨ds2, n2⟩
      rw [ih ds2 n2]
      cases hr : r.tag with
      | common =>
          cases r with
          | mk tag content =>
              simp only at hr; subst hr
              rw [analyzeStep_common] at hs
              obtain ⟨h1, h2⟩ := Prod.mk.injEq .. ▸ hs
              simp [List.countP_cons, ← h2]
              omega
      | removed =>
          cases r with
          | mk tag content =>
              simp only at hr; subst hr
              rw [analyzeStep_removed] at hs
              obtain ⟨h1, h2⟩ := Prod.mk.injEq .. ▸ hs
              simp [List.countP_cons, ← h2]
      | added =>
          cases r with
          | mk tag content =>
              simp only at hr; subst hr
              rw [analyzeStep_added] at hs
              obtain ⟨h1, h2⟩ := Prod.mk.injEq .. ▸ hs
              simp [List.countP_cons, ← h2]
              omega
      | hint =>
          cases r with
          | mk tag content =>
              simp only at hr; subst hr
              have h2 : n2 = n := by
                have := analyzeStep_hint_snd ds n content
                rw [hs] at this
                exact this
              simp [List.countP_cons, h2]

/-- C5: for every alignment sequence containing k Added records and m Common
records (and any number of Removed and Hint records), the classifier's
line_num counter equals k + m after the full forward pass. -/
theorem classifier_line_count (l : List AlignmentRecord) :
    (analyze_differences_run l).2 =
      l.countP (fun r => r.tag == Tag.added) +
        l.countP (fun r => r.tag == Tag.common) := by
  unfold analyze_differences_run
  rw [analyze_run_snd l [] 0]
  omega

/-- The 1-based line numbers carried by the emitted records, in output
order (ChangedContent records carry no line number and are skipped). -/
def linesOf (ds : List DiffRecord) : List Nat :=
  ds.filterMap DiffRecord.line

theorem analyzeStep_lines_inv (ds : List DiffRecord) (n : Nat)
    (r : AlignmentRecord)
    (h1 : List.Chain' (· ≤ ·) (linesOf ds))
    (h2 : ∀ x ∈ linesOf ds, x ≤ n + 1) :
    List.Chain' (· ≤ ·) (linesOf (analyzeStep (ds, n) r).1) ∧
      ∀ x ∈ linesOf (analyzeStep (ds, n) r).1,
        x ≤ (analyzeStep (ds, n) r).2 + 1 := by
  cases r with
  | mk tag content =>
    cases tag with
    | common =>
        rw [analyzeStep_common]
        exact ⟨h1, fun x hx => Nat.le_succ_of_le (h2 x hx)⟩
    | removed =>
        rw [analyzeStep_removed]
        have hlines : linesOf (ds ++
            [⟨DKind.removed, some (n + 1), rstripNl content⟩]) =
            linesOf ds ++ [n + 1] := by
          unfold linesOf
          rw [List.filterMap_append]
          rfl
        rw [hlines]
        constructor
        · rw [List.chain'_append]
          refine ⟨h1, List.chain'_singleton _, ?_⟩
          intro x hx y hy
          simp at hy
          subst hy
          obtain ⟨hne, hx'⟩ := List.mem_getLast?_eq_getLast hx
          rw [hx']
          exact h2 _ (List.getLast_mem hne)
        · intro x hx
          rcases List.mem_append.mp hx with hx | hx
          · exact h2 x hx
          · simp at hx; omega
    | added =>
        rw [analyzeStep_added]
        have hlines : linesOf (ds ++
            [⟨DKind.added, some (n + 1), rstripNl content⟩]) =
            linesOf ds ++ [n + 1] := by
          unfold linesOf
          rw [List.filterMap_append]
          rfl
        rw [hlines]
        constructor
        · rw [List.chain'_append]
          refine ⟨h1, List.chain'_singleton _, ?_⟩
          intro x hx y hy
          simp at hy
          subst hy
          obtain ⟨hne, hx'⟩ := List.mem_getLast?_eq_getLast hx
          rw [hx']
          exact h2 _ (List.getLast_mem hne)
        · intro x hx
          rcases List.mem_append.mp hx with hx | hx
          · exact Nat.le_succ_of_le (h2 x hx)
          · simp at hx; omega
    | hint =>
        rcases hl : ds.getLast? with _ | last
        · have hno : lastIsRemoved ds = false := by
            unfold lastIsRemoved; rw [hl]
          rw [analyzeStep_hint_drop ds n content hno]
          exact ⟨h1, h2⟩
        · by_cases hk : last.kind = DKind.removed
          · rw [analyzeStep_hint_promote ds n content last hl hk]
            have hds := dropLast_append_getLast?_self ds last hl
            have hlines : linesOf (ds.dropLast ++
                [⟨DKind.changed, last.line, last.content⟩,
                 ⟨DKind.changedContent, none, rstripNl content⟩]) =
                linesOf ds := by
              conv_rhs => rw [← hds]
              unfold linesOf
              rw [List.filterMap_append, List.filterMap_append]
              cases hline : last.line <;> simp [List.filterMap_cons, hline]
            rw [hlines]
            exact ⟨h1, h2⟩
          · rw [analyzeStep_hint_drop ds n content
              (lastIsRemoved_false_of_kind ds last hl hk)]
            exact ⟨h1, h2⟩

theorem analyze_run_lines (l : List AlignmentRecord) :
    ∀ ds n, List.Chain' (· ≤ ·) (linesOf ds) →
      (∀ x ∈ linesOf ds, x ≤ n + 1) →
      List.Chain' (· ≤ ·) (linesOf (l.foldl analyzeStep (ds, n)).1) := by
  induction l with
  | nil => intro ds n h1 _; simpa using h1
  | cons r rest ih =>
      intro ds n h1 h2
      rw [List.foldl_cons]
      rcases hs : analyzeStep (ds, n) r with ⟨ds2, n2⟩
      obtain ⟨h1', h2'⟩ := analyzeStep_lines_inv ds n r h1 h2
      rw [hs] at h1' h2'
      exact ih ds2 n2 h1' h2'

/-- C9: for every alignment sequence, the 1-based line numbers attached to
the Removed, Added and Changed records emitted by the classifier form a
non-decreasing sequence in output order. -/
theorem classifier_lines_monotone (l : List AlignmentRecord) :
    List.Chain' (· ≤ ·) ((analyze_differences l).filterMap DiffRecord.line) := by
  have h := analyze_run_lines l [] 0 (by simp [linesOf]) (by simp [linesOf])
  exact h

/-- Modelled from the spec: the Line Aligner (the repository delegates it to
difflib.Differ.compare, library code not present in the repository) computes
an LCS-based edit script.  Length of a longest common subsequence, used to
choose the edit script branch. -/
def lcsLen : List String → List String → Nat
  | [], _ => 0
  | _ :: _, [] => 0
  | x :: xs, y :: ys =>
      if x = y then lcsLen xs ys + 1
      else max (lcsLen xs (y :: ys)) (lcsLen (x :: xs) ys)
termination_by a b => a.length + b.length
decreasing_by all_goals simp_wf <;> omega

/-- Modelled from the spec: the LCS-based edit script of the Line Aligner
(spec section 4.1) — lines present in both sequences in the same relative
order are Common, lines only in the first are Removed, lines only in the
second are Added, with no reordering. -/
def editScript : List String → List String → List AlignmentRecord
  | [], ys => ys.map (fun y => ⟨Tag.added, y⟩)
  | x :: xs, [] => (x :: xs).map (fun x => ⟨Tag.removed, x⟩)
  | x :: xs, y :: ys =>
      if x = y then ⟨Tag.common, x⟩ :: editScript xs ys
      else if lcsLen (x :: xs) ys ≤ lcsLen xs (y :: ys) then
        ⟨Tag.removed, x⟩ :: editScript xs (y :: ys)
      else
        ⟨Tag.added, y⟩ :: editScript (x :: xs) ys
termination_by a b => a.length + b.length
decreasing_by all_goals simp_wf <;> omega

/-- Modelled from the spec: the Aligner's intraline Hint annotation — for a
Removed record immediately followed by an Added record that is similar
enough, a Hint record is emitted after the pair.  The similarity test and
the rendered annotation are an unspecified implementation detail of the
alignment library, so they are taken as a parameter: hintOf returns some
rendered annotation exactly when the pair is deemed similar. -/
def addHints (hintOf : String → String → Option String) :
    List AlignmentRecord → List AlignmentRecord
  | [] => []
  | [r1] => [r1]
  | r1 :: r2 :: rest2 =>
      if r1.tag = Tag.removed ∧ r2.tag = Tag.added then
        match hintOf r1.content r2.content with
        | some h => r1 :: r2 :: ⟨Tag.hint, h⟩ :: addHints hintOf rest2
        | none => r1 :: r2 :: addHints hintOf rest2
      else r1 :: addHints hintOf (r2 :: rest2)

/-- Modelled from the spec: align(lines1, lines2), the Line Aligner of spec
section 4.1 (realised in the repository by difflib.Differ.compare, which is
not part of the repository's source). -/
def align (hintOf : String → String → Option String)
    (lines1 lines2 : List String) : List AlignmentRecord :=
  addHints hintOf (editScript lines1 lines2)

theorem editScript_diag (L : List String) :
    editScript L L = L.map (fun s => ⟨Tag.common, s⟩) := by
  induction L with
  | nil => simp [editScript]
  | cons x xs ih =>
      rw [editScript, if_pos rfl, ih]
      rfl

theorem addHints_map_common (hintOf : String → String → Option String)
    (L : List String) :
    addHints hintOf (L.map (fun s => ⟨Tag.common, s⟩)) =
      L.map (fun s => ⟨Tag.common, s⟩) := by
  induction L with
  | nil => rfl
  | cons x xs ih =>
      cases xs with
      | nil => rfl
      | cons y ys =>
          rw [List.map_cons, List.map_cons, addHints]
          rw [if_neg (by simp)]
          rw [← List.map_cons, ih]

theorem analyze_run_common (L : List String) :
    ∀ ds n, (List.foldl analyzeStep (ds, n)
        (L.map (fun s => ⟨Tag.common, s⟩))).1 = ds := by
  induction L with
  | nil => intro ds n; rfl
  | cons x xs ih =>
      intro ds n
      rw [List.map_cons, List.foldl_cons, analyzeStep_common]
      exact ih ds (n + 1)

/-- C4: for every line sequence L (and every similarity/annotation choice of
the alignment library), classifying the alignment of L with itself yields an
empty list of differences: classify(align(L, L)) = []. -/
theorem classify_align_self_empty (hintOf : String → String → Option String)
    (L : List String) : analyze_differences (align hintOf L L) = [] := by
  unfold align
  rw [editScript_diag, addHints_map_common]
  unfold analyze_differences analyze_differences_run
  exact analyze_run_common L [] 0

/-- Lower bound of the first continuation byte admitted after a given UTF-8
lead byte (strict decoding, as performed by Python's utf-8 codec). -/
def contLo (b : Nat) : Nat :=
  if b = 0xE0 then 0xA0 else if b = 0xF0 then 0x90 else 0x80

/-- Upper bound of the first continuation byte admitted after a given UTF-8
lead byte (excluding surrogates and values above 0x10FFFF). -/
def contHi (b : Nat) : Nat :=
  if b = 0xED then 0x9F else if b = 0xF4 then 0x8F else 0xBF

/-- A byte is a UTF-8 continuation byte. -/
def isCont (b : Nat) : Prop := 0x80 ≤ b ∧ b ≤ 0xBF

instance (b : Nat) : Decidable (isCont b) := by
  unfold isCont; infer_instance

/-- Strict UTF-8 decoding of a byte sequence, as performed by reading the
file with encoding utf-8: every malformed sequence (bad lead byte, missing
or out-of-range continuation, overlong form, surrogate, value beyond
0x10FFFF) raises UnicodeDecodeError, modelled as `none`. -/
def utf8Decode : List Nat → Option (List Char)
  | [] => some []
  | b :: rest =>
      if b < 0x80 then
        (utf8Decode rest).map (fun cs => Char.ofNat b :: cs)
      else if 0xC2 ≤ b ∧ b ≤ 0xDF then
        match rest with
        | c1 :: rest1 =>
            if isCont c1 then
              (utf8Decode rest1).map
                (fun cs => Char.ofNat ((b - 0xC0) * 0x40 + (c1 - 0x80)) :: cs)
            else none
        | [] => none
      else if 0xE0 ≤ b ∧ b ≤ 0xEF then
        match rest with
        | c1 :: c2 :: rest2 =>
            if (contLo b ≤ c1 ∧ c1 ≤ contHi b) ∧ isCont c2 then
              (utf8Decode rest2).map
                (fun cs => Char.ofNat ((b - 0xE0) * 0x1000 +
                  (c1 - 0x80) * 0x40 + (c2 - 0x80)) :: cs)
            else none
        | _ => none
      else if 0xF0 ≤ b ∧ b ≤ 0xF4 then
        match rest with
        | c1 :: c2 :: c3 :: rest3 =>
            if (contLo b ≤ c1 ∧ c1 ≤ contHi b) ∧ isCont c2 ∧ isCont c3 then
              (utf8Decode rest3).map
                (fun cs => Char.ofNat ((b - 0xF0) * 0x40000 +
                  (c1 - 0x80) * 0x1000 + (c2 - 0x80) * 0x40 + (c3 - 0x80)) :: cs)
            else none
        | _ => none
      else none

/-- Splitting a decoded character stream into lines as readlines does:
each line keeps its trailing newline; a final segment without a newline is
still a line; an empty stream yields no lines.  The accumulator holds the
current line reversed. -/
def splitLinesAux (acc : List Char) : List Char → List (List Char)
  | [] => if acc.isEmpty then [] else [acc.reverse]
  | c :: rest =>
      if c = Char.ofNat 10 then (c :: acc).reverse :: splitLinesAux [] rest
      else splitLinesAux (c :: acc) rest

def splitLines (cs : List Char) : List String :=
  (splitLinesAux [] cs).map String.mk

/-- f.readlines() on a file opened with encoding utf-8: decode the whole
byte stream, then split into lines (none when decoding fails). -/
def utf8Lines (bs : List Nat) : Option (List String) :=
  (utf8Decode bs).map splitLines

/-- Splitting a raw byte stream into lines as readlines does on a file
opened in binary mode: split after every 0x0A byte, keeping it. -/
def splitBytesAux (acc : List Nat) : List Nat → List (List Nat)
  | [] => if acc.isEmpty then [] else [acc.reverse]
  | b :: rest =>
      if b = 10 then (b :: acc).reverse :: splitBytesAux [] rest
      else splitBytesAux (b :: acc) rest

def splitBytesLines (bs : List Nat) : List (List Nat) :=
  splitBytesAux [] bs

/-- line.decode(latin1) for each binary line: the latin-1 decode is total
and maps every byte to the character of the same code point
(src/NC/Compare_nc_txt.py lines 85-88). -/
def latin1Lines (bs : List Nat) : List String :=
  (splitBytesLines bs).map (fun l => String.mk (l.map Char.ofNat))

/-- What the read phase of `_compare_files` in src/NC/Compare_txt.py
produces: text lines when both files decode as utf-8, raw byte lines for
both files otherwise (lines 77-88: the binary fallback calls readlines()
without decoding). -/
inductive TxtReadResult where
  | text (lines1 lines2 : List String)
  | bytes (lines1 lines2 : List (List Nat))
deriving DecidableEq, Repr

def TxtReadResult.isText : TxtReadResult → Bool
  | TxtReadResult.text _ _ => true
  | TxtReadResult.bytes _ _ => false

/-- The read phase of `_compare_files` in src/NC/Compare_txt.py (lines
77-88), on the byte contents of the two files: try utf-8 on both files; on
UnicodeDecodeError for either, re-read both in binary mode. -/
def compare_files_txt_read (b1 b2 : List Nat) : TxtReadResult :=
  match utf8Lines b1, utf8Lines b2 with
  | some l1, some l2 => TxtReadResult.text l1 l2
  | _, _ => TxtReadResult.bytes (splitBytesLines b1) (splitBytesLines b2)

/-- The read phase of `_compare_files` in src/NC/Compare_nc_txt.py (lines
77-88): try utf-8 on both files; on UnicodeDecodeError for either, re-read
both and decode every line as latin-1. -/
def compare_files_nc_read (b1 b2 : List Nat) : List String × List String :=
  match utf8Lines b1, utf8Lines b2 with
  | some l1, some l2 => (l1, l2)
  | _, _ => (latin1Lines b1, latin1Lines b2)

/-- C6 counterexample: the claim says the fallback re-read produces decoded
text lines for both files, but in src/NC/Compare_txt.py the fallback opens
both files in binary mode and never decodes: on a file whose bytes are not
valid UTF-8 (the single byte 0xFF), the pair is re-read as raw byte lines,
not text. -/
theorem txt_fallback_not_text :
    utf8Lines [0xFF] = none ∧
    (compare_files_txt_read [0xFF] [0x61]).isText = false ∧
    compare_files_txt_read [0xFF] [0x61] =
      TxtReadResult.bytes [[0xFF]] [[0x61]] := by
  refine ⟨rfl, rfl, rfl⟩

/-- C6 (amended): if the primary UTF-8 decode fails for either file of a
pair, the whole pair is re-read once; in Compare_nc_txt.py both files are
then decoded under the permissive single-byte latin-1 fallback, while in
Compare_txt.py both files are re-read in binary mode without decoding; in
both programs the two files of a pair are always read with the same
encoding choice (both utf-8, or both under the fallback). -/
theorem pair_encoding_fallback (b1 b2 : List Nat) :
    (utf8Lines b1 = none ∨ utf8Lines b2 = none →
      compare_files_nc_read b1 b2 = (latin1Lines b1, latin1Lines b2) ∧
      compare_files_txt_read b1 b2 =
        TxtReadResult.bytes (splitBytesLines b1) (splitBytesLines b2)) ∧
    (∀ l1 l2 : List String, utf8Lines b1 = some l1 → utf8Lines b2 = some l2 →
      compare_files_nc_read b1 b2 = (l1, l2) ∧
      compare_files_txt_read b1 b2 = TxtReadResult.text l1 l2) := by
  constructor
  · intro h
    unfold compare_files_nc_read compare_files_txt_read
    rcases h1 : utf8Lines b1 with _ | l1
    · exact ⟨rfl, rfl⟩
    · rcases h2 : utf8Lines b2 with _ | l2
      · exact ⟨rfl, rfl⟩
      · rcases h with h | h
        · rw [h1] at h; exact absurd h (by simp)
        · rw [h2] at h; exact absurd h (by simp)
  · intro l1 l2 h1 h2
    unfold compare_files_nc_read compare_files_txt_read
    rw [h1, h2]
    exact ⟨rfl, rfl⟩

theorem pair_encoding_fallback_witness :
    (compare_files_nc_read [0xFF] [0x61] =
        (latin1Lines [0xFF], latin1Lines [0x61]) ∧
      compare_files_txt_read [0xFF] [0x61] =
        TxtReadResult.bytes (splitBytesLines [0xFF]) (splitBytesLines [0x61])) ∧
    (compare_files_nc_read [0x61] [0x62] = (["a"], ["b"]) ∧
      compare_files_txt_read [0x61] [0x62] = TxtReadResult.text ["a"] ["b"]) :=
  ⟨(pair_encoding_fallback [0xFF] [0x61]).1 (Or.inl rfl),
   (pair_encoding_fallback [0x61] [0x62]).2 ["a"] ["b"] rfl rfl⟩

/-- One pair found by `_find_file_pairs` (src/NC/Compare_txt.py lines
54-75): a subfolder that contains both configured file names.  The file
system is abstracted as the list of (subdirectory name, its file names);
entries of the parent directory that are not directories are skipped by the
source and therefore not modelled. -/
structure PairEntry where
  folder : String
  file1 : String
  file2 : String
deriving DecidableEq, Repr

def find_file_pairs (file1_name file2_name : String) (parent : String)
    (folders : List (String × List String)) : List PairEntry :=
  folders.filterMap (fun fd =>
    if fd.2.contains file1_name ∧ fd.2.contains file2_name then
      some ⟨fd.1, parent ++ "/" ++ fd.1 ++ "/" ++ file1_name,
            parent ++ "/" ++ fd.1 ++ "/" ++ file2_name⟩
    else none)

/-- `_compare_file_pair` (src/NC/Compare_txt.py lines 132-172) with the
whole read-align-classify pipeline for one pair abstracted as `doCompare`
(an exception anywhere in the try block is an `Except.error`): returns the
pair (is_identical, difference count), with (False, -1) when an exception
was caught at the pair boundary. -/
def compare_file_pair
    (doCompare : String → String → Except String (List DiffRecord))
    (p : PairEntry) : Bool × Int :=
  match doCompare p.file1 p.file2 with
  | Except.ok diffs =>
      if diffs.isEmpty then (true, 0) else (false, (diffs.length : Int))
  | Except.error _ => (false, -1)

/-- One entry of results.details in src/NC/Compare_txt.py run(). -/
structure DetailTxt where
  folder : String
  is_identical : Bool
  differences : Int
  file1 : String
  file2 : String
deriving DecidableEq, Repr

/-- The summary dictionary returned by run() in src/NC/Compare_txt.py. -/
structure ResultsTxt where
  total_folders : Nat
  identical_count : Nat
  different_count : Nat
  error_count : Nat
  total_differences : Int
  different_folders : List String
  details : List DetailTxt
deriving DecidableEq, Repr

/-- The loop body of run() in src/NC/Compare_txt.py (lines 199-217). -/
def runTxtStep (doCompare : String → String → Except String (List DiffRecord))
    (res : ResultsTxt) (p : PairEntry) : ResultsTxt :=
  let r := compare_file_pair doCompare p
  let details2 := res.details ++ [⟨p.folder, r.1, r.2, p.file1, p.file2⟩]
  if r.1 then
    ⟨res.total_folders, res.identical_count + 1, res.different_count,
     res.error_count, res.total_differences, res.different_folders, details2⟩
  else if r.2 > 0 then
    ⟨res.total_folders, res.identical_count, res.different_count + 1,
     res.error_count, res.total_differences + r.2,
     res.different_folders ++ [p.folder], details2⟩
  else
    ⟨res.total_folders, res.identical_count, res.different_count,
     res.error_count + 1, res.total_differences, res.different_folders,
     details2⟩

/-- run() of src/NC/Compare_txt.py (lines 174-243): None when no file pair
was found, otherwise the summary accumulated over all pairs. -/
def run_txt (doCompare : String → String → Except String (List DiffRecord))
    (file1_name file2_name parent : String)
    (folders : List (String × List String)) : Option ResultsTxt :=
  let pairs := find_file_pairs file1_name file2_name parent folders
  if pairs.isEmpty then none
  else some (pairs.foldl (runTxtStep doCompare)
    ⟨pairs.length, 0, 0, 0, 0, [], []⟩)

/-- Identifying metadata of one comparison in src/NC/Compare_nc_txt.py. -/
structure CompInfo where
  file1 : String
  file2 : String
  ext : String
deriving DecidableEq, Repr

/-- One result dictionary of `_compare_in_folder`
(src/NC/Compare_nc_txt.py lines 163-206): status identical (differences 0),
status different with its difference count, or status error with the caught
message (the error dictionary carries no difference count). -/
inductive CompResult where
  | identical (info : CompInfo)
  | different (info : CompInfo) (differences : Nat)
  | error (msg : String) (ext : String)
deriving DecidableEq, Repr

/-- One comparison attempt inside `_compare_in_folder`: the try block of
src/NC/Compare_nc_txt.py lines 157-206, with the read-align-classify
pipeline abstracted as `doCompare`. -/
def compare_one (doCompare : String → String → Except String (List DiffRecord))
    (ext f1 f2 : String) : CompResult :=
  match doCompare f1 f2 with
  | Except.ok diffs =>
      if diffs.isEmpty then CompResult.identical ⟨f1, f2, ext⟩
      else CompResult.different ⟨f1, f2, ext⟩ diffs.length
  | Except.error e => CompResult.error e ext

/-- Python str.lower() restricted to ASCII letters (the behaviour relevant
for file extensions and names compared here). -/
def lowerChar (c : Char) : Char :=
  if 'A' ≤ c ∧ c ≤ 'Z' then Char.ofNat (c.toNat + 32) else c

def lowerStr (s : String) : String := String.mk (s.data.map lowerChar)

/-- str.endswith on strings. -/
def endsWithStr (s suffix : String) : Bool := suffix.data.isSuffixOf s.data

/-- Python string comparison: lexicographic by code point. -/
def leChars : List Char → List Char → Bool
  | [], _ => true
  | _ :: _, [] => false
  | x :: xs, y :: ys =>
      if x.toNat < y.toNat then true
      else if y.toNat < x.toNat then false
      else leChars xs ys

def leStr (a b : String) : Bool := leChars a.data b.data

/-- files.sort() on strings: stable ascending insertion sort under the
code-point lexicographic order used by Python. -/
def insertLe (x : String) : List String → List String
  | [] => [x]
  | y :: ys => if leStr x y then x :: y :: ys else y :: insertLe x ys

def sortStr : List String → List String
  | [] => []
  | x :: xs => insertLe x (sortStr xs)

/-- Assignment of a file to the first configured extension that its
lowercased name ends with (the break in src/NC/Compare_nc_txt.py lines
59-64). -/
def firstExt (exts : List String) (file : String) : Option String :=
  exts.find? (fun ext => endsWithStr (lowerStr file) ext)

/-- One entry of the file_groups dictionary built by `_find_files`
(src/NC/Compare_nc_txt.py lines 47-75): every subdirectory yields an entry,
whether or not it contains matching files. -/
structure FolderGroup where
  folder : String
  folder_path : String
  files_by_ext : List (String × List String)
deriving DecidableEq, Repr

def find_files (exts : List String) (parent : String)
    (folders : List (String × List String)) : List FolderGroup :=
  folders.map (fun fd =>
    ⟨fd.1, parent ++ "/" ++ fd.1,
     exts.map (fun ext =>
       (ext, sortStr ((fd.2.filter
         (fun f => firstExt exts f == some ext)).map
           (fun f => parent ++ "/" ++ fd.1 ++ "/" ++ f))))⟩)

/-- `_compare_in_folder` (src/NC/Compare_nc_txt.py lines 130-211): for each
configured extension with at least two files, compare the first two sorted
files; extensions with fewer than two files are skipped. -/
def compare_in_folder
    (doCompare : String → String → Except String (List DiffRecord))
    (g : FolderGroup) : List CompResult :=
  g.files_by_ext.filterMap (fun ef =>
    match ef.2 with
    | f1 :: f2 :: _ => some (compare_one doCompare ef.1 f1 f2)
    | _ => none)

/-- The summary dictionary returned by run() in src/NC/Compare_nc_txt.py. -/
structure ResultsNc where
  total_folders : Nat
  compared_pairs : Nat
  identical_pairs : Nat
  different_pairs : Nat
  error_pairs : Nat
  total_differences : Nat
  different_files : List (String × CompInfo × Nat)
  details : List (String × List CompResult)
deriving DecidableEq, Repr

/-- The inner loop body of run() in src/NC/Compare_nc_txt.py
(lines 243-258): fold one comparison outcome into the summary. -/
def ncCompStep (folder : String) (res : ResultsNc) (comp : CompResult) :
    ResultsNc :=
  match comp with
  | CompResult.identical _ =>
      ⟨res.total_folders, res.compared_pairs + 1, res.identical_pairs + 1,
       res.different_pairs, res.error_pairs, res.total_differences,
       res.different_files, res.details⟩
  | CompResult.different info n =>
      ⟨res.total_folders, res.compared_pairs + 1, res.identical_pairs,
       res.different_pairs + 1, res.error_pairs, res.total_differences + n,
       res.different_files ++ [(folder, info, n)], res.details⟩
  | CompResult.error _ _ =>
      ⟨res.total_folders, res.compared_pairs + 1, res.identical_pairs,
       res.different_pairs, res.error_pairs + 1, res.total_differences,
       res.different_files, res.details⟩

/-- The outer loop body of run() in src/NC/Compare_nc_txt.py
(lines 239-258): process one folder and fold its comparison outcomes. -/
def ncFolderStep
    (doCompare : String → String → Except String (List DiffRecord))
    (res : ResultsNc) (g : FolderGroup) : ResultsNc :=
  let comps := compare_in_folder doCompare g
  comps.foldl (ncCompStep g.folder)
    ⟨res.total_folders, res.compared_pairs, res.identical_pairs,
     res.different_pairs, res.error_pairs, res.total_differences,
     res.different_files, res.details ++ [(g.folder, comps)]⟩

/-- run() of src/NC/Compare_nc_txt.py (lines 213-287): the configured
extensions are lowercased at construction (line 11); None exactly when
file_groups is empty, i.e. when the parent has no subdirectories at all. -/
def run_nc (doCompare : String → String → Except String (List DiffRecord))
    (file_exts : List String) (parent : String)
    (folders : List (String × List String)) : Option ResultsNc :=
  let exts := file_exts.map lowerStr
  let groups := find_files exts parent folders
  if groups.isEmpty then none
  else some (groups.foldl (ncFolderStep doCompare)
    ⟨groups.length, 0, 0, 0, 0, 0, [], []⟩)

/-- All comparison outcomes of a run of src/NC/Compare_nc_txt.py, in
processing order (folders in order, extensions in order within each). -/
def allCompsNc (doCompare : String → String → Except String (List DiffRecord))
    (file_exts : List String) (parent : String)
    (folders : List (String × List String)) : List CompResult :=
  ((find_files (file_exts.map lowerStr) parent folders).map
    (compare_in_folder doCompare)).flatten

/-- Classification of one pair in run() of src/NC/Compare_txt.py:
identical branch taken. -/
def pIsId (doCompare : String → String → Except String (List DiffRecord))
    (p : PairEntry) : Bool :=
  (compare_file_pair doCompare p).1

/-- Different branch taken (not identical and positive count). -/
def pIsDiff (doCompare : String → String → Except String (List DiffRecord))
    (p : PairEntry) : Bool :=
  !(compare_file_pair doCompare p).1 &&
    decide (0 < (compare_file_pair doCompare p).2)

/-- Error branch taken (not identical and non-positive count). -/
def pIsErr (doCompare : String → String → Except String (List DiffRecord))
    (p : PairEntry) : Bool :=
  !(compare_file_pair doCompare p).1 &&
    !(decide (0 < (compare_file_pair doCompare p).2))

/-- Contribution of one pair to total_differences. -/
def dcContrib (doCompare : String → String → Except String (List DiffRecord))
    (p : PairEntry) : Int :=
  if pIsDiff doCompare p then (compare_file_pair doCompare p).2 else 0

/-- The detail entry recorded for one pair. -/
def detailOf (doCompare : String → String → Except String (List DiffRecord))
    (p : PairEntry) : DetailTxt :=
  ⟨p.folder, (compare_file_pair doCompare p).1,
   (compare_file_pair doCompare p).2, p.file1, p.file2⟩

theorem foldl_runTxtStep
    (doCompare : String → String → Except String (List DiffRecord)) :
    ∀ (pairs : List PairEntry) (res : ResultsTxt),
      pairs.foldl (runTxtStep doCompare) res =
        ⟨res.total_folders,
         res.identical_count + pairs.countP (pIsId doCompare),
         res.different_count + pairs.countP (pIsDiff doCompare),
         res.error_count + pairs.countP (pIsErr doCompare),
         res.total_differences + (pairs.map (dcContrib doCompare)).sum,
         res.different_folders ++
           (pairs.filter (pIsDiff doCompare)).map (fun p => p.folder),
         res.details ++ pairs.map (detailOf doCompare)⟩ := by
  intro pairs
  induction pairs with
  | nil =>
      intro res
      cases res
      simp
  | cons p ps ih =>
      intro res
      rw [List.foldl_cons, ih]
      have hid : pIsId doCompare p = (compare_file_pair doCompare p).1 := rfl
      unfold runTxtStep
      by_cases h1 : (compare_file_pair doCompare p).1
      · rw [if_pos h1]
        have hd : pIsDiff doCompare p = false := by
          unfold pIsDiff; rw [h1]; rfl
        have he : pIsErr doCompare p = false := by
          unfold pIsErr; rw [h1]; rfl
        simp only [List.countP_cons, List.map_cons, List.sum_cons,
          List.filter_cons, hid, h1, hd, he, detailOf, dcContrib]
        simp [List.append_assoc]
        omega
      · rw [if_neg (by simp [h1])]
        have hb1 : (compare_file_pair doCompare p).1 = false :=
          Bool.eq_false_iff.mpr h1
        by_cases h2 : 0 < (compare_file_pair doCompare p).2
        · rw [if_pos h2]
          have hd : pIsDiff doCompare p = true := by
            unfold pIsDiff; rw [hb1]; simp [h2]
          have he : pIsErr doCompare p = false := by
            unfold pIsErr; rw [hb1]; simp [h2]
          have hc : dcContrib doCompare p = (compare_file_pair doCompare p).2 := by
            unfold dcContrib; rw [hd]; rfl
          simp only [List.countP_cons, List.map_cons, List.sum_cons,
            List.filter_cons, hid, hb1, hd, he, hc, detailOf]
          simp [List.append_assoc]
          omega
        · rw [if_neg h2]
          have hd : pIsDiff doCompare p = false := by
            unfold pIsDiff; rw [hb1]; simp [h2]
          have he : pIsErr doCompare p = true := by
            unfold pIsErr; rw [hb1]; simp [h2]
          have hc : dcContrib doCompare p = 0 := by
            unfold dcContrib; rw [hd]; rfl
          simp only [List.countP_cons, List.map_cons, List.sum_cons,
            List.filter_cons, hid, hb1, hd, he, hc, detailOf]
          simp [List.append_assoc]
          omega

def isIdenticalComp : CompResult → Bool
  | CompResult.identical _ => true
  | _ => false

def isDifferentComp : CompResult → Bool
  | CompResult.different _ _ => true
  | _ => false

def isErrorComp : CompResult → Bool
  | CompResult.error _ _ => true
  | _ => false

/-- Contribution of one comparison outcome to total_differences. -/
def diffCountOf : CompResult → Nat
  | CompResult.different _ n => n
  | _ => 0

/-- Entry appended to results.different_files for a different outcome. -/
def diffEntry (folder : String) : CompResult → Option (String × CompInfo × Nat)
  | CompResult.different info n => some (folder, info, n)
  | _ => none

theorem foldl_ncCompStep (folder : String) :
    ∀ (comps : List CompResult) (res : ResultsNc),
      comps.foldl (ncCompStep folder) res =
        ⟨res.total_folders,
         res.compared_pairs + comps.length,
         res.identical_pairs + comps.countP isIdenticalComp,
         res.different_pairs + comps.countP isDifferentComp,
         res.error_pairs + comps.countP isErrorComp,
         res.total_differences + (comps.map diffCountOf).sum,
         res.different_files ++ comps.filterMap (diffEntry folder),
         res.details⟩ := by
  intro comps
  induction comps with
  | nil =>
      intro res
      cases res
      simp
  | cons c cs ih =>
      intro res
      rw [List.foldl_cons, ih]
      cases c with
      | identical info =>
          simp only [ncCompStep, List.countP_cons, List.map_cons,
            List.sum_cons, List.filterMap_cons, List.length_cons,
            isIdenticalComp, isDifferentComp, isErrorComp, diffCountOf,
            diffEntry]
          simp
          omega
      | different info n =>
          simp only [ncCompStep, List.countP_cons, List.map_cons,
            List.sum_cons, List.filterMap_cons, List.length_cons,
            isIdenticalComp, isDifferentComp, isErrorComp, diffCountOf,
            diffEntry]
          simp [List.append_assoc]
          omega
      | error msg ext =>
          simp only [ncCompStep, List.countP_cons, List.map_cons,
            List.sum_cons, List.filterMap_cons, List.length_cons,
            isIdenticalComp, isDifferentComp, isErrorComp, diffCountOf,
            diffEntry]
          simp
          omega

theorem foldl_ncFolderStep
    (doCompare : String → String → Except String (List DiffRecord)) :
    ∀ (groups : List FolderGroup) (res : ResultsNc),
      groups.foldl (ncFolderStep doCompare) res =
        ⟨res.total_folders,
         res.compared_pairs + ((groups.map
           (compare_in_folder doCompare)).flatten).length,
         res.identical_pairs + ((groups.map
           (compare_in_folder doCompare)).flatten).countP isIdenticalComp,
         res.different_pairs + ((groups.map
           (compare_in_folder doCompare)).flatten).countP isDifferentComp,
         res.error_pairs + ((groups.map
           (compare_in_folder doCompare)).flatten).countP isErrorComp,
         res.total_differences + (((groups.map
           (compare_in_folder doCompare)).flatten).map diffCountOf).sum,
         res.different_files ++ (groups.map (fun g =>
           (compare_in_folder doCompare g).filterMap
             (diffEntry g.folder))).flatten,
         res.details ++ groups.map (fun g =>
           (g.folder, compare_in_folder doCompare g))⟩ := by
  intro groups
  induction groups with
  | nil =>
      intro res
      cases res
      simp
  | cons g gs ih =>
      intro res
      have hstep : ncFolderStep doCompare res g =
          ⟨res.total_folders,
           res.compared_pairs + (compare_in_folder doCompare g).length,
           res.identical_pairs +
             (compare_in_folder doCompare g).countP isIdenticalComp,
           res.different_pairs +
             (compare_in_folder doCompare g).countP isDifferentComp,
           res.error_pairs +
             (compare_in_folder doCompare g).countP isErrorComp,
           res.total_differences +
             ((compare_in_folder doCompare g).map diffCountOf).sum,
           res.different_files ++
             (compare_in_folder doCompare g).filterMap (diffEntry g.folder),
           res.details ++ [(g.folder, compare_in_folder doCompare g)]⟩ := by
        unfold ncFolderStep
        rw [foldl_ncCompStep]
      rw [List.foldl_cons, hstep, ih]
      simp [List.append_assoc]
      omega

theorem run_txt_eq_some
    (doCompare : String → String → Except String (List DiffRecord))
    (f1n f2n parent : String) (folders : List (String × List String))
    (r : ResultsTxt) (h : run_txt doCompare f1n f2n parent folders = some r) :
    r = ⟨(find_file_pairs f1n f2n parent folders).length,
         (find_file_pairs f1n f2n parent folders).countP (pIsId doCompare),
         (find_file_pairs f1n f2n parent folders).countP (pIsDiff doCompare),
         (find_file_pairs f1n f2n parent folders).countP (pIsErr doCompare),
         ((find_file_pairs f1n f2n parent folders).map
           (dcContrib doCompare)).sum,
         ((find_file_pairs f1n f2n parent folders).filter
           (pIsDiff doCompare)).map (fun p => p.folder),
         (find_file_pairs f1n f2n parent folders).map
           (detailOf doCompare)⟩ := by
  unfold run_txt at h
  by_cases hp : (find_file_pairs f1n f2n parent folders).isEmpty
  · simp [hp] at h
  · simp only [hp, Bool.false_eq_true, if_false] at h
    rw [foldl_runTxtStep] at h
    have h2 := Option.some.inj h
    rw [← h2]
    simp

theorem run_nc_eq_some
    (doCompare : String → String → Except String (List DiffRecord))
    (exts : List String) (parent : String)
    (folders : List (String × List String))
    (r : ResultsNc) (h : run_nc doCompare exts parent folders = some r) :
    r = ⟨(find_files (exts.map lowerStr) parent folders).length,
         (allCompsNc doCompare exts parent folders).length,
         (allCompsNc doCompare exts parent folders).countP isIdenticalComp,
         (allCompsNc doCompare exts parent folders).countP isDifferentComp,
         (allCompsNc doCompare exts parent folders).countP isErrorComp,
         ((allCompsNc doCompare exts parent folders).map diffCountOf).sum,
         ((find_files (exts.map lowerStr) parent folders).map (fun g =>
           (compare_in_folder doCompare g).filterMap
             (diffEntry g.folder))).flatten,
         (find_files (exts.map lowerStr) parent folders).map (fun g =>
           (g.folder, compare_in_folder doCompare g))⟩ := by
  unfold run_nc at h
  by_cases hp : (find_files (exts.map lowerStr) parent folders).isEmpty
  · simp [hp] at h
  · simp only [hp, Bool.false_eq_true, if_false] at h
    rw [foldl_ncFolderStep] at h
    have h2 := Option.some.inj h
    rw [← h2]
    unfold allCompsNc
    simp

/-- The comparison pipeline of one pair raised an exception. -/
def isErrorExcept : Except String (List DiffRecord) → Bool
  | Except.error _ => true
  | Except.ok _ => false

theorem pIsErr_eq
    (doCompare : String → String → Except String (List DiffRecord))
    (p : PairEntry) :
    pIsErr doCompare p = isErrorExcept (doCompare p.file1 p.file2) := by
  unfold pIsErr compare_file_pair isErrorExcept
  cases hdc : doCompare p.file1 p.file2 with
  | ok diffs =>
      cases diffs with
      | nil => rfl
      | cons d ds => simp
  | error e => simp

theorem countP_partition3 {α : Type} (l : List α) (p1 p2 p3 : α → Bool)
    (h : ∀ x, (if p1 x then 1 else 0) + (if p2 x then 1 else 0) +
      (if p3 x then 1 else 0) = 1) :
    l.countP p1 + l.countP p2 + l.countP p3 = l.length := by
  induction l with
  | nil => simp
  | cons x l ih =>
      have hx := h x
      rw [List.countP_cons, List.countP_cons, List.countP_cons,
        List.length_cons]
      omega

theorem txt_branch_partition
    (doCompare : String → String → Except String (List DiffRecord))
    (p : PairEntry) :
    (if pIsId doCompare p then 1 else 0) +
      (if pIsDiff doCompare p then 1 else 0) +
      (if pIsErr doCompare p then 1 else 0) = 1 := by
  unfold pIsId pIsDiff pIsErr
  cases h1 : (compare_file_pair doCompare p).1 <;>
    cases h2 : decide (0 < (compare_file_pair doCompare p).2) <;>
      simp [h1, h2]

theorem comp_branch_partition (c : CompResult) :
    (if isIdenticalComp c then 1 else 0) +
      (if isDifferentComp c then 1 else 0) +
      (if isErrorComp c then 1 else 0) = 1 := by
  cases c <;> rfl

/-- The sum of the difference counts of the detail entries recorded as
different (not identical and positive count). -/
def sumDifferent (ds : List DetailTxt) : Int :=
  ((ds.filter (fun d => !d.is_identical && decide (0 < d.differences))).map
    (fun d => d.differences)).sum

theorem sumDifferent_map_detail
    (doCompare : String → String → Except String (List DiffRecord)) :
    ∀ pairs : List PairEntry,
      sumDifferent (pairs.map (detailOf doCompare)) =
        (pairs.map (dcContrib doCompare)).sum := by
  intro pairs
  induction pairs with
  | nil => rfl
  | cons p ps ih =>
      unfold sumDifferent at ih ⊢
      rw [List.map_cons, List.filter_cons]
      have hpred : (!(detailOf doCompare p).is_identical &&
          decide (0 < (detailOf doCompare p).differences)) =
          pIsDiff doCompare p := rfl
      rw [hpred]
      cases hd : pIsDiff doCompare p with
      | true =>
          rw [if_pos rfl, List.map_cons, List.sum_cons, List.map_cons,
            List.sum_cons, ih]
          have : (detailOf doCompare p).differences =
              dcContrib doCompare p := by
            unfold dcContrib
            rw [hd, if_pos rfl]
            rfl
          rw [this]
      | false =>
          simp only [Bool.false_eq_true, if_false]
          rw [List.map_cons, List.sum_cons, ih]
          have : dcContrib doCompare p = 0 := by
            unfold dcContrib
            rw [hd]
            simp
          rw [this]
          omega

theorem diffEntry_sum (folder : String) :
    ∀ comps : List CompResult,
      ((comps.filterMap (diffEntry folder)).map (fun x => x.2.2)).sum =
        (comps.map diffCountOf).sum := by
  intro comps
  induction comps with
  | nil => rfl
  | cons c cs ih =>
      cases c with
      | identical info =>
          simp only [List.filterMap_cons, diffEntry, List.map_cons,
            List.sum_cons, diffCountOf]
          rw [ih]
          omega
      | different info n =>
          simp only [List.filterMap_cons, diffEntry, List.map_cons,
            List.sum_cons, diffCountOf]
          rw [ih]
      | error msg ext =>
          simp only [List.filterMap_cons, diffEntry, List.map_cons,
            List.sum_cons, diffCountOf]
          rw [ih]
          omega

/-- C7: any exception raised while reading, aligning, or classifying one
pair is caught at the pair boundary and recorded as an Error outcome: in
Compare_txt.py the per-pair return is (False, -1), a sentinel
distinguishable from zero, and in Compare_nc_txt.py an error result is
recorded; in both programs every discovered pair still contributes exactly
one outcome to the summary, i.e. the run continues with the remaining
pairs, and the error outcomes are counted as errors. -/
theorem pair_error_contained :
    (∀ (doCompare : String → String → Except String (List DiffRecord))
        (p : PairEntry) (e : String),
        doCompare p.file1 p.file2 = Except.error e →
        compare_file_pair doCompare p = (false, -1)) ∧
    (∀ (doCompare : String → String → Except String (List DiffRecord))
        (ext f1 f2 e : String),
        doCompare f1 f2 = Except.error e →
        compare_one doCompare ext f1 f2 = CompResult.error e ext) ∧
    (∀ (doCompare : String → String → Except String (List DiffRecord))
        (f1n f2n parent : String) (folders : List (String × List String))
        (r : ResultsTxt),
        run_txt doCompare f1n f2n parent folders = some r →
        r.details.length = r.total_folders ∧
        r.error_count = (find_file_pairs f1n f2n parent folders).countP
          (fun p => isErrorExcept (doCompare p.file1 p.file2))) ∧
    (∀ (doCompare : String → String → Except String (List DiffRecord))
        (exts : List String) (parent : String)
        (folders : List (String × List String)) (r : ResultsNc),
        run_nc doCompare exts parent folders = some r →
        r.compared_pairs = (allCompsNc doCompare exts parent folders).length ∧
        r.error_pairs = (allCompsNc doCompare exts parent folders).countP
          isErrorComp) := by
  refine ⟨?_, ?_, ?_, ?_⟩
  · intro doCompare p e h
    unfold compare_file_pair
    rw [h]
  · intro doCompare ext f1 f2 e h
    unfold compare_one
    rw [h]
  · intro doCompare f1n f2n parent folders r h
    rw [run_txt_eq_some doCompare f1n f2n parent folders r h]
    constructor
    · simp
    · show (find_file_pairs f1n f2n parent folders).countP
        (pIsErr doCompare) = _
      have heq : pIsErr doCompare =
          fun p => isErrorExcept (doCompare p.file1 p.file2) :=
        funext (pIsErr_eq doCompare)
      rw [heq]
  · intro doCompare exts parent folders r h
    rw [run_nc_eq_some doCompare exts parent folders r h]
    exact ⟨rfl, rfl⟩

/-- A comparison pipeline that always raises. -/
def errCompare : String → String → Except String (List DiffRecord) :=
  fun _ _ => Except.error ("x")

/-- A comparison pipeline that always succeeds with no differences. -/
def okCompare : String → String → Except String (List DiffRecord) :=
  fun _ _ => Except.ok []

/-- A one-folder directory listing containing a valid txt pair. -/
def foldersW : List (String × List String) :=
  [("d", ["file1.txt", "file2.txt"])]

/-- The summary Compare_txt.py run() produces on foldersW when the
pipeline raises on every pair. -/
def rTxtErrW : ResultsTxt :=
  ⟨1, 0, 0, 1, 0, [],
   [⟨"d", false, -1, "p/d/file1.txt", "p/d/file2.txt"⟩]⟩

/-- The summary Compare_nc_txt.py run() produces on foldersW when the
pipeline raises on every pair. -/
def rNcErrW : ResultsNc :=
  ⟨1, 1, 0, 0, 1, 0, [],
   [("d", [CompResult.error ("x") (".txt")])]⟩

theorem pair_error_contained_witness :
    compare_file_pair errCompare ⟨"d", "f1", "f2"⟩ = (false, -1) ∧
    compare_one errCompare (".txt") ("f1") ("f2") =
      CompResult.error ("x") (".txt") ∧
    (rTxtErrW.details.length = rTxtErrW.total_folders ∧
      rTxtErrW.error_count =
        (find_file_pairs ("file1.txt") ("file2.txt") ("p") foldersW).countP
          (fun p => isErrorExcept (errCompare p.file1 p.file2))) ∧
    (rNcErrW.compared_pairs =
        (allCompsNc errCompare [".txt"] ("p") foldersW).length ∧
      rNcErrW.error_pairs =
        (allCompsNc errCompare [".txt"] ("p") foldersW).countP isErrorComp) :=
  ⟨pair_error_contained.1 errCompare ⟨"d", "f1", "f2"⟩ ("x") rfl,
   pair_error_contained.2.1 errCompare (".txt") ("f1") ("f2") ("x") rfl,
   pair_error_contained.2.2.1 errCompare ("file1.txt") ("file2.txt") ("p")
     foldersW rTxtErrW rfl,
   pair_error_contained.2.2.2 errCompare [".txt"] ("p") foldersW rNcErrW rfl⟩

/-- C8 counterexample: in src/NC/Compare_nc_txt.py, a root that does
contain a subfolder but no valid file pair at all makes run() return a
normal summary (with zero compared pairs), not None: file_groups receives
one entry per subdirectory whether or not it holds files. -/
theorem run_nc_no_pairs_not_none :
    run_nc okCompare [".nc", ".txt"] ("p") [("sub", [])] =
      some ⟨1, 0, 0, 0, 0, 0, [], [("sub", [])]⟩ ∧
    (run_nc okCompare [".nc", ".txt"] ("p") [("sub", [])]).isSome = true :=
  ⟨rfl, rfl⟩

/-- C8 (amended): in Compare_txt.py, run() logs an error and returns None
whenever no valid file pair is found (which covers a root without
qualifying subfolders); in Compare_nc_txt.py, run() returns None exactly
when the root has no subfolders at all, while a root whose subfolders
contain no valid pair still yields a normal summary structure. -/
theorem run_absent_result :
    (∀ (doCompare : String → String → Except String (List DiffRecord))
        (f1n f2n parent : String) (folders : List (String × List String)),
        find_file_pairs f1n f2n parent folders = [] →
        run_txt doCompare f1n f2n parent folders = none) ∧
    (∀ (doCompare : String → String → Except String (List DiffRecord))
        (exts : List String) (parent : String),
        run_nc doCompare exts parent [] = none) ∧
    (∀ (doCompare : String → String → Except String (List DiffRecord))
        (exts : List String) (parent : String)
        (folders : List (String × List String)), folders ≠ [] →
        (run_nc doCompare exts parent folders).isSome = true) := by
  refine ⟨?_, ?_, ?_⟩
  · intro doCompare f1n f2n parent folders h
    unfold run_txt
    rw [h]
    rfl
  · intro doCompare exts parent
    rfl
  · intro doCompare exts parent folders h
    unfold run_nc
    cases folders with
    | nil => exact absurd rfl h
    | cons fd fds => rfl

theorem run_absent_result_witness :
    run_txt okCompare ("file1.txt") ("file2.txt") ("p") [("d", [])] = none ∧
    run_nc okCompare [".nc"] ("p") [] = none ∧
    (run_nc okCompare [".nc"] ("p") [("sub", [])]).isSome = true :=
  ⟨run_absent_result.1 okCompare ("file1.txt") ("file2.txt") ("p")
     [("d", [])] rfl,
   run_absent_result.2.1 okCompare [".nc"] ("p"),
   run_absent_result.2.2 okCompare [".nc"] ("p") [("sub", [])] (by decide)⟩

/-- C10: in the summary returned by run(), the outcome counters partition
the processed pairs — identical_count + different_count + error_count =
total_folders in Compare_txt.py, identical_pairs + different_pairs +
error_pairs = compared_pairs in Compare_nc_txt.py — and in both,
total_differences equals the sum of the per-pair difference counts of the
pairs counted as different. -/
theorem summary_counters_partition :
    (∀ (doCompare : String → String → Except String (List DiffRecord))
        (f1n f2n parent : String) (folders : List (String × List String))
        (r : ResultsTxt),
        run_txt doCompare f1n f2n parent folders = some r →
        r.identical_count + r.different_count + r.error_count =
          r.total_folders ∧
        r.total_differences = sumDifferent r.details) ∧
    (∀ (doCompare : String → String → Except String (List DiffRecord))
        (exts : List String) (parent : String)
        (folders : List (String × List String)) (r : ResultsNc),
        run_nc doCompare exts parent folders = some r →
        r.identical_pairs + r.different_pairs + r.error_pairs =
          r.compared_pairs ∧
        r.total_differences =
          (r.different_files.map (fun x => x.2.2)).sum) := by
  constructor
  · intro doCompare f1n f2n parent folders r h
    rw [run_txt_eq_some doCompare f1n f2n parent folders r h]
    constructor
    · exact countP_partition3 _ _ _ _ (txt_branch_partition doCompare)
    · exact (sumDifferent_map_detail doCompare _).symm
  · intro doCompare exts parent folders r h
    rw [run_nc_eq_some doCompare exts parent folders r h]
    constructor
    · exact countP_partition3 _ _ _ _ comp_branch_partition
    · show (((allCompsNc doCompare exts parent folders).map diffCountOf).sum :
        Nat) = _
      unfold allCompsNc
      rw [List.map_flatten, List.sum_flatten, List.map_flatten,
        List.sum_flatten]
      simp only [List.map_map]
      congr 1
      apply List.map_congr_left
      intro g _
      simp only [Function.comp_apply]
      exact (diffEntry_sum g.folder (compare_in_folder doCompare g)).symm

/-- A pipeline reporting one difference for every pair. -/
def oneDiffCompare : String → String → Except String (List DiffRecord) :=
  fun _ _ => Except.ok [⟨DKind.added, some 1, "z"⟩]

/-- The summary Compare_txt.py run() produces on foldersW when every pair
has exactly one difference. -/
def rTxtDiffW : ResultsTxt :=
  ⟨1, 0, 1, 0, 1, ["d"],
   [⟨"d", false, 1, "p/d/file1.txt", "p/d/file2.txt"⟩]⟩

/-- The summary Compare_nc_txt.py run() produces on foldersW when every
pair has exactly one difference. -/
def rNcDiffW : ResultsNc :=
  ⟨1, 1, 0, 1, 0, 1,
   [("d", ⟨"p/d/file1.txt", "p/d/file2.txt", ".txt"⟩, 1)],
   [("d", [CompResult.different
     ⟨"p/d/file1.txt", "p/d/file2.txt", ".txt"⟩ 1])]⟩

theorem summary_counters_partition_witness :
    (rTxtDiffW.identical_count + rTxtDiffW.different_count +
        rTxtDiffW.error_count = rTxtDiffW.total_folders ∧
      rTxtDiffW.total_differences = sumDifferent rTxtDiffW.details) ∧
    (rNcDiffW.identical_pairs + rNcDiffW.different_pairs +
        rNcDiffW.error_pairs = rNcDiffW.compared_pairs ∧
      rNcDiffW.total_differences =
        (rNcDiffW.different_files.map (fun x => x.2.2)).sum) :=
  ⟨summary_counters_partition.1 oneDiffCompare ("file1.txt") ("file2.txt")
     ("p") foldersW rTxtDiffW rfl,
   summary_counters_partition.2 oneDiffCompare [".txt"] ("p") foldersW
     rNcDiffW rfl⟩

end NC
